import Mathlib

set_option maxRecDepth 100000

/-
  Verification of the simple-string-patterns library (Rust) against its
  natural-language specification.

  Shallow embedding conventions:
  * Rust `&str` / `String` values are modelled as `List Char`; positions are
    character indices (the source uses byte offsets, which are related to
    character indices by a strictly monotone map, so every order comparison
    and emptiness test agrees).
  * `char::is_digit(10)` is `Char.isDigit`; `str::to_lowercase` and
    `char::is_alphanumeric` are modelled at the ASCII level by
    `Char.toLower` / `Char.isAlphanum` (the claims under study do not depend
    on non-ASCII case folding).
  * Vectors are Lean lists; `Vec::push` is appending a singleton.

  Definitions are translated from the repository sources
  (`src/enums.rs`, `src/simple_match.rs`, `src/alphanumeric.rs`,
  `src/segments.rs`, `src/utils.rs`, `src/bounds_builder.rs`); definitions
  whose names end in `_spec` (or that are explicitly marked so) are instead
  written from the specification's wording, for comparison with the code.
-/

/-- Model of Rust `str::to_lowercase` (ASCII level): lower-case each character. -/
def to_lowercase (s : List Char) : List Char :=
  s.map Char.toLower

/-- `strip_non_alphanum` from `src/alphanumeric.rs`: keep only alphanumeric characters. -/
def strip_non_alphanum (s : List Char) : List Char :=
  s.filter Char.isAlphanum

/-- `CaseMatchMode` from `src/enums.rs`. -/
inductive CaseMatchMode where
  | Sensitive
  | Insensitive
  | AlphanumInsensitive
deriving DecidableEq, Repr

/-- `BoundsPosition` from `src/enums.rs`. -/
inductive BoundsPosition where
  | Starts
  | Ends
  | Contains
  | Whole
deriving DecidableEq, Repr

/-- `StringBounds` from `src/enums.rs`: scalar predicate rules plus And/Or rule lists. -/
inductive StringBounds where
  | StartsWith : List Char → Bool → CaseMatchMode → StringBounds
  | EndsWith : List Char → Bool → CaseMatchMode → StringBounds
  | Contains : List Char → Bool → CaseMatchMode → StringBounds
  | Whole : List Char → Bool → CaseMatchMode → StringBounds
  | And : List StringBounds → StringBounds
  | Or : List StringBounds → StringBounds

/-- `StringBounds::new` from `src/enums.rs`. -/
def StringBounds.new (mode : BoundsPosition) (txt : List Char) (is_positive : Bool)
    (case_mode : CaseMatchMode) : StringBounds :=
  match mode with
  | BoundsPosition.Starts => StringBounds.StartsWith txt is_positive case_mode
  | BoundsPosition.Ends => StringBounds.EndsWith txt is_positive case_mode
  | BoundsPosition.Whole => StringBounds.Whole txt is_positive case_mode
  | _ => StringBounds.Contains txt is_positive case_mode

/-- `StringBounds::case_insensitive` from `src/enums.rs`. -/
def StringBounds.case_insensitive : StringBounds → Bool
  | StringBounds.StartsWith _ _ cm | StringBounds.EndsWith _ _ cm
  | StringBounds.Contains _ _ cm | StringBounds.Whole _ _ cm =>
    match cm with
    | CaseMatchMode.Sensitive => false
    | _ => true
  | _ => false

/-- `StringBounds::case_mode` from `src/enums.rs`. -/
def StringBounds.case_mode : StringBounds → CaseMatchMode
  | StringBounds.StartsWith _ _ cm | StringBounds.EndsWith _ _ cm
  | StringBounds.Contains _ _ cm | StringBounds.Whole _ _ cm => cm
  | _ => CaseMatchMode.Sensitive

/-- `StringBounds::pattern` from `src/enums.rs`. -/
def StringBounds.pattern : StringBounds → List Char
  | StringBounds.StartsWith txt _ _ | StringBounds.EndsWith txt _ _
  | StringBounds.Contains txt _ _ | StringBounds.Whole txt _ _ => txt
  | _ => []

/-- `StringBounds::is_positive` from `src/enums.rs`. -/
def StringBounds.is_positive : StringBounds → Bool
  | StringBounds.StartsWith _ is_pos _ | StringBounds.EndsWith _ is_pos _
  | StringBounds.Contains _ is_pos _ | StringBounds.Whole _ is_pos _ => is_pos
  | _ => false

/-- `StringBounds::starts_with` from `src/enums.rs`. -/
def StringBounds.starts_with : StringBounds → Bool
  | StringBounds.StartsWith _ _ _ => true
  | _ => false

/-- `StringBounds::ends_with` from `src/enums.rs`. -/
def StringBounds.ends_with : StringBounds → Bool
  | StringBounds.EndsWith _ _ _ => true
  | _ => false

/-- `StringBounds::matches_whole` from `src/enums.rs`. -/
def StringBounds.matches_whole : StringBounds → Bool
  | StringBounds.Whole _ _ _ => true
  | _ => false

/-- Model of Rust `str::contains(&str)`: the pattern occurs as a contiguous
substring. -/
def contains_slice (pat : List Char) : List Char → Bool
  | [] => pat.isEmpty
  | c :: rest => pat.isPrefixOf (c :: rest) || contains_slice pat rest

/-- `match_bounds_rule` from `src/simple_match.rs`: evaluate one scalar rule. -/
def match_bounds_rule (txt : List Char) (item : StringBounds) : Bool :=
  let cm := item.case_mode
  let ci := item.case_insensitive
  let base :=
    if ci then
      match cm with
      | CaseMatchMode.AlphanumInsensitive => strip_non_alphanum (to_lowercase txt)
      | _ => to_lowercase txt
    else txt
  let pattern := if ci then to_lowercase item.pattern else item.pattern
  let is_matched :=
    (if item.starts_with then pattern.isPrefixOf base
     else if item.ends_with then pattern.isSuffixOf base
     else if item.matches_whole then base == pattern
     else contains_slice pattern base) == item.is_positive
  is_matched

mutual

/-- `match_bounds_rule_set` from `src/simple_match.rs`: evaluate And/Or sub-rule
lists via `matched_conditional`, and scalar rules via `match_bounds_rule`. -/
def match_bounds_rule_set (txt : List Char) : StringBounds → Bool
  | StringBounds.And inner_rules => (matched_conditional txt inner_rules).all (fun result => result)
  | StringBounds.Or inner_rules => (matched_conditional txt inner_rules).any (fun result => result)
  | item => match_bounds_rule txt item

/-- `matched_conditional` from `src/simple_match.rs`: push the evaluation of each
rule in order into the result vector. -/
def matched_conditional (txt : List Char) : List StringBounds → List Bool
  | [] => []
  | item :: rest => match_bounds_rule_set txt item :: matched_conditional txt rest

end

/-- `match_all_conditional` from `src/simple_match.rs`: early-exit conjunction,
with an explicit `false` result for an empty rule list. -/
def match_all_conditional (txt : List Char) (pattern_sets : List StringBounds) : Bool :=
  if pattern_sets.length > 0 then
    pattern_sets.all (fun item => match_bounds_rule_set txt item)
  else
    false

/-- `match_any_conditional` from `src/simple_match.rs`: early-exit disjunction,
`false` when no rule matches or none is provided. -/
def match_any_conditional (txt : List Char) (pattern_sets : List StringBounds) : Bool :=
  pattern_sets.any (fun item => match_bounds_rule_set txt item)

/-- Inner loop of `find_matched_indices` (from `src/simple_match.rs`): positions
of a single-character pattern, carrying the index of the current head. -/
def fmi_aux (pat : Char) : List Char → Nat → List Nat
  | [], _ => []
  | c :: rest, i =>
    if c == pat then i :: fmi_aux pat rest (i + 1) else fmi_aux pat rest (i + 1)

/-- `find_matched_indices` from `src/simple_match.rs`, specialised to the
single-character patterns `"."` and `","` it is used with: the positions of all
occurrences, in increasing order (character indices). -/
def find_matched_indices (s : List Char) (pat : Char) : List Nat :=
  fmi_aux pat s 0

/-- `to_start_end` from `src/segments.rs` (via `rsplit_once`): split at the last
occurrence of the separator; if it is absent the second part is empty. -/
def to_start_end (s : List Char) (sep : Char) : List Char × List Char :=
  match (find_matched_indices s sep).getLast? with
  | some i => (s.take i, s.drop (i + 1))
  | none => (s, [])

/-- `correct_numeric_string` from `src/alphanumeric.rs`: normalise the comma /
dot usage of a candidate numeric string so that a dot is the only decimal
separator. -/
def correct_numeric_string (s : List Char) (enforce_comma_separator : Bool) : List Char :=
  let commas := find_matched_indices s ','
  let last_comma_index := commas.getLast?.getD 0
  let points := find_matched_indices s '.'
  let last_point_index := points.getLast?.getD 0
  let num_commas := commas.length
  if decide (points.length > 1)
      || (decide (last_comma_index > last_point_index) && decide (num_commas ≤ 1))
      || (enforce_comma_separator && decide (num_commas ≤ 1)) then
    if decide (num_commas < 1) then
      s.filter (fun c => c != '.')
    else
      let p := to_start_end s ','
      (p.1.filter (fun c => c != '.')) ++ '.' :: p.2
  else
    s.filter (fun c => c != ',')

/-- Model of Rust `str::trim_end_matches` for a single-character pattern:
remove every trailing occurrence. -/
def drop_trailing (s : List Char) (c : Char) : List Char :=
  (s.reverse.dropWhile (fun ch => ch == c)).reverse

/-- `add_sanitized_numeric_string` from `src/utils.rs`: push the string with
trailing dots, then trailing commas, removed. -/
def add_sanitized_numeric_string (output : List (List Char)) (num_string : List Char) :
    List (List Char) :=
  output ++ [drop_trailing (drop_trailing num_string '.') ',']

/-- Loop body of `is_numeric` from `src/alphanumeric.rs`: the accumulator is
`(num_valid, index, num_decimal_separators)`; validity of the character is
judged before the decimal-separator count is updated, exactly as in the
source. -/
def is_numeric_step (last_index : Nat) (acc : Nat × Nat × Nat) (c : Char) :
    Nat × Nat × Nat :=
  let num_valid := acc.1
  let index := acc.2.1
  let num_decimal_separators := acc.2.2
  let valid_char :=
    if c.isDigit then true
    else match c with
      | '-' => index == 0
      | '.' => decide (index < last_index) && decide (num_decimal_separators < 1)
      | _ => false
  let num_decimal_separators :=
    if c == '.' then num_decimal_separators + 1 else num_decimal_separators
  let num_valid := if valid_char then num_valid + 1 else num_valid
  (num_valid, index + 1, num_decimal_separators)

/-- `is_numeric` from `src/alphanumeric.rs` (trait `IsNumeric`): strict check
that the string parses as an integer or float, counting valid characters. -/
def is_numeric (s : List Char) : Bool :=
  let num_chars := s.length
  if num_chars < 1 then false
  else
    let last_index := num_chars - 1
    (s.foldl (is_numeric_step last_index) (0, 0, 0)).1 == num_chars

/-- The alternate full-stop codepoint (U+2024, one dot leader) recognised by the
scanner in `src/alphanumeric.rs`. -/
def one_dot_leader : Char := Char.ofNat 0x2024

/-- Mutable state of the scanning loop in `to_numeric_strings_conditional`
(`src/alphanumeric.rs`). -/
structure ScanState where
  prev_char : Char
  seq_num : Nat
  num_string : List Char
  output : List (List Char)
  prev_is_separator : Bool

/-- One iteration of the scanning loop of `to_numeric_strings_conditional`
(`src/alphanumeric.rs`), applied to the character at the given index. -/
def scan_step (enforce_comma_separator : Bool) (last_index : Nat) (acc : ScanState)
    (p : Nat × Char) : ScanState :=
  let index := p.1
  let component := p.2
  let is_end := index == last_index
  let is_digit := component.isDigit
  -- if the previous char is a separator and the current is not a digit,
  -- strip the final separator-like character from a long-enough buffer
  let stripped :=
    if acc.prev_is_separator && !is_digit then
      let num_str_len := acc.num_string.length
      if num_str_len > 1 then
        let ns := acc.num_string.take (num_str_len - 1)
        (ns, true, ns.length)
      else (acc.num_string, is_end, acc.seq_num)
    else (acc.num_string, is_end, acc.seq_num)
  let num_string := stripped.1
  let is_end := stripped.2.1
  let seq_num := stripped.2.2
  let branched :=
    if is_digit then
      let ns := if acc.prev_char == '-' then num_string ++ ['-'] else num_string
      (ns ++ [component], seq_num + 1, is_end, false)
    else if acc.prev_char.isDigit then
      if component == '.' || component == one_dot_leader || component == ',' then
        -- ignore a final decimal or thousands separator
        if index == last_index then
          (num_string, seq_num, true, true)
        else
          (num_string ++ [if component == ',' then ',' else '.'], 0, is_end, true)
      else
        (num_string, seq_num, true, acc.prev_is_separator)
    else
      (num_string, seq_num, true, false)
  let num_string := branched.1
  let seq_num := branched.2.1
  let is_end := branched.2.2.1
  let prev_is_separator := branched.2.2.2
  let flushed :=
    if is_end && decide (seq_num > 0) then
      (add_sanitized_numeric_string acc.output
        (correct_numeric_string num_string enforce_comma_separator), [], 0)
    else (acc.output, num_string, seq_num)
  { prev_char := component
    seq_num := flushed.2.2
    num_string := flushed.2.1
    output := flushed.1
    prev_is_separator := prev_is_separator }

/-- `to_numeric_strings_conditional` from `src/alphanumeric.rs`: scan a string
left to right and collect sanitised numeric substrings. -/
def to_numeric_strings_conditional (s : List Char) (enforce_comma_separator : Bool) :
    List (List Char) :=
  let last_index := s.length - 1
  (s.enum.foldl (scan_step enforce_comma_separator last_index)
    { prev_char := ' ', seq_num := 0, num_string := [], output := [], prev_is_separator := false }).output

/-- Value of an ASCII digit run read in base 10. -/
def digits_to_nat (ds : List Char) : Nat :=
  ds.foldl (fun acc c => acc * 10 + (c.toNat - '0'.toNat)) 0

/-- Modelled from the spec: the NumberCaster (§4.3) relies on the host
language's native numeric parsing (`str::parse::<T>` in the source, which is
standard-library code outside this repository); it is modelled as exact
parsing of a strict decimal literal into a rational number, with `none` for
any string that is not such a literal. -/
def parse_decimal (s : List Char) : Option ℚ :=
  let signed := match s with
    | '-' :: t => (true, t)
    | _ => (false, s)
  let neg := signed.1
  let t := signed.2
  if t.all (fun c => c.isDigit || c == '.') && t.any Char.isDigit && decide (t.count '.' ≤ 1)
  then
    let ip := t.takeWhile (fun c => c != '.')
    let fp := (t.dropWhile (fun c => c != '.')).drop 1
    let num : Int := (digits_to_nat ip * 10 ^ fp.length + digits_to_nat fp : Nat)
    let magnitude : ℚ := mkRat num (10 ^ fp.length)
    some (if neg then -magnitude else magnitude)
  else none

/-- `to_numbers_conditional` from `src/alphanumeric.rs`: parse each scanned
numeric string and keep the successful results. -/
def to_numbers_conditional (parse : List Char → Option ℚ) (s : List Char)
    (enforce_comma_separator : Bool) : List ℚ :=
  (to_numeric_strings_conditional s enforce_comma_separator).filterMap parse

/-- `strs_to_string_bounds` from `src/utils.rs`: positive rules for each pattern. -/
def strs_to_string_bounds (strs : List (List Char)) (case_mode : CaseMatchMode)
    (mode : BoundsPosition) : List StringBounds :=
  strs.map (fun txt => StringBounds.new mode txt true case_mode)

/-- `strs_to_negative_string_bounds` from `src/utils.rs`: negative rules for each
pattern. -/
def strs_to_negative_string_bounds (strs : List (List Char)) (case_mode : CaseMatchMode)
    (mode : BoundsPosition) : List StringBounds :=
  strs.map (fun txt => StringBounds.new mode txt false case_mode)

/-- `BoundsBuilder` from `src/bounds_builder.rs`: an ordered list of accumulated
rules. -/
structure BoundsBuilder where
  string_bounds : List StringBounds

/-- `BoundsBuilder::or_true` from `src/bounds_builder.rs`: push one Or node of
positive rules built from the pattern array. -/
def BoundsBuilder.or_true (b : BoundsBuilder) (patterns : List (List Char))
    (case_mode : CaseMatchMode) (position : BoundsPosition) : BoundsBuilder :=
  { string_bounds := b.string_bounds ++ [StringBounds.Or (strs_to_string_bounds patterns case_mode position)] }

/-- `BoundsBuilder::and_true` from `src/bounds_builder.rs`: push one node of
positive rules built from the pattern array (the source pushes `StringBounds::Or`). -/
def BoundsBuilder.and_true (b : BoundsBuilder) (patterns : List (List Char))
    (case_mode : CaseMatchMode) (position : BoundsPosition) : BoundsBuilder :=
  { string_bounds := b.string_bounds ++ [StringBounds.Or (strs_to_string_bounds patterns case_mode position)] }

/-- `BoundsBuilder::and_false` from `src/bounds_builder.rs`: push one node of
negative rules built from the pattern array (the source pushes `StringBounds::Or`). -/
def BoundsBuilder.and_false (b : BoundsBuilder) (patterns : List (List Char))
    (case_mode : CaseMatchMode) (position : BoundsPosition) : BoundsBuilder :=
  { string_bounds := b.string_bounds ++ [StringBounds.Or (strs_to_negative_string_bounds patterns case_mode position)] }

/-
  Specification-side definitions, written from the wording of the spec and of
  the claims rather than from the source code.
-/

/-- Index of the last occurrence of a character, written from the spec's
decision rule (§4.2): missing separators take the default position 0, as does a
sole occurrence at the head. -/
def last_pos (c : Char) : List Char → Nat
  | [] => 0
  | _ :: t => if c ∈ t then last_pos c t + 1 else 0

/-- The separator decision rule of spec §4.2 / claim C3, written from its words:
more than one dot, or a final comma after the final dot with at most one comma,
or the forced flag with at most one comma, makes the comma the decimal
separator; with no comma the dots are removed, otherwise the string is split at
the last comma, dots are removed from the head and the parts are rejoined with
one dot; in every other case the commas are removed. -/
def correct_numeric_string_spec (s : List Char) (force : Bool) : List Char :=
  if 1 < s.count '.'
      ∨ (last_pos ',' s > last_pos '.' s ∧ s.count ',' ≤ 1)
      ∨ (force = true ∧ s.count ',' ≤ 1) then
    if s.count ',' = 0 then
      s.filter (fun c => c != '.')
    else
      ((s.take (last_pos ',' s)).filter (fun c => c != '.')) ++ '.' :: s.drop (last_pos ',' s + 1)
  else
    s.filter (fun c => c != ',')

/-- The per-character condition of the strict numeric validator as the spec
words it (§6 / claim C7): a digit, or a minus sign at position 0, or a dot that
is the single dot of the string and is not in the last position. -/
def numeric_char_ok (s : List Char) (i : Nat) (c : Char) : Prop :=
  c.isDigit = true ∨ (c = '-' ∧ i = 0) ∨ (c = '.' ∧ i < s.length - 1 ∧ s.count '.' = 1)

/-- `is_strict_numeric_literal` as the spec words it: every character satisfies
`numeric_char_ok` at its position. -/
def is_strict_numeric_literal_spec (s : List Char) : Prop :=
  ∀ i (h : i < s.length), numeric_char_ok s i (s.get ⟨i, h⟩)

/-- Sample transformation per case mode, as spec §4.4 words it: lower-cased for
Insensitive, lower-cased and alphanumeric-stripped for AlphanumInsensitive,
unchanged for Sensitive. -/
def apply_case_mode_sample (cm : CaseMatchMode) (txt : List Char) : List Char :=
  match cm with
  | CaseMatchMode.Sensitive => txt
  | CaseMatchMode.Insensitive => to_lowercase txt
  | CaseMatchMode.AlphanumInsensitive => strip_non_alphanum (to_lowercase txt)

/-- Pattern transformation per case mode, as spec §4.4 words it: the pattern is
never alphanumeric-stripped, only case-folded when insensitive. -/
def apply_case_mode_pattern (cm : CaseMatchMode) (p : List Char) : List Char :=
  match cm with
  | CaseMatchMode.Sensitive => p
  | _ => to_lowercase p

/-- The raw positional test of spec §4.4. -/
def position_test (pos : BoundsPosition) (base pattern : List Char) : Bool :=
  match pos with
  | BoundsPosition.Starts => pattern.isPrefixOf base
  | BoundsPosition.Ends => pattern.isSuffixOf base
  | BoundsPosition.Whole => base == pattern
  | BoundsPosition.Contains => contains_slice pattern base

/-- Predicate-node evaluation as spec §4.4 / claim C5 words it: the result is
the equivalence of the raw positional test with the positivity flag. -/
def evaluate_predicate_spec (txt pattern : List Char) (positive : Bool)
    (cm : CaseMatchMode) (pos : BoundsPosition) : Bool :=
  (position_test pos (apply_case_mode_sample cm txt) (apply_case_mode_pattern cm pattern))
    == positive

/-- The "none of the patterns matches" semantics that claim C6 ascribes to the
`and_false` / `and_not_*` composite builders, written from the claim's words. -/
def none_matches_eval (txt : List Char) (patterns : List (List Char))
    (case_mode : CaseMatchMode) (position : BoundsPosition) : Bool :=
  patterns.all (fun p => !(match_bounds_rule txt (StringBounds.new position p true case_mode)))

/-
  Helper lemmas shared by the claim theorems.
-/

theorem last_pos_of_not_mem {c : Char} {s : List Char} (h : c ∉ s) : last_pos c s = 0 := by
  cases s with
  | nil => rfl
  | cons x t =>
    have ht : c ∉ t := fun hm => h (List.mem_cons_of_mem x hm)
    simp [last_pos, ht]

theorem fmi_aux_eq_nil {pat : Char} {s : List Char} (i : Nat) (h : pat ∉ s) :
    fmi_aux pat s i = [] := by
  induction s generalizing i with
  | nil => rfl
  | cons c t ih =>
    have hc : ¬(c == pat) := by
      simp only [beq_iff_eq]
      intro hcp
      exact h (hcp ▸ List.mem_cons_self c t)
    have ht : pat ∉ t := fun hm => h (List.mem_cons_of_mem c hm)
    simp [fmi_aux, hc, ih (i + 1) ht]

theorem fmi_aux_ne_nil {pat : Char} {s : List Char} (i : Nat) (h : pat ∈ s) :
    fmi_aux pat s i ≠ [] := by
  induction s generalizing i with
  | nil => cases h
  | cons c t ih =>
    by_cases hc : c == pat
    · simp [fmi_aux, hc]
    · have ht : pat ∈ t := by
        rcases List.mem_cons.mp h with h1 | h1
        · exact absurd (by simp [h1]) hc
        · exact h1
      simp only [fmi_aux, if_neg hc]
      exact ih (i + 1) ht

theorem getLast?_cons_of_ne_nil {α : Type} {a : α} {l : List α} (h : l ≠ []) :
    (a :: l).getLast? = l.getLast? := by
  cases l with
  | nil => exact absurd rfl h
  | cons b t => rfl

theorem fmi_aux_length (pat : Char) (s : List Char) (i : Nat) :
    (fmi_aux pat s i).length = s.count pat := by
  induction s generalizing i with
  | nil => rfl
  | cons c t ih =>
    by_cases hc : c == pat
    · have hcp : c = pat := beq_iff_eq.mp hc
      simp [fmi_aux, hc, ih (i + 1), List.count_cons, hcp]
    · have hcp : ¬ c = pat := by simpa using hc
      simp [fmi_aux, hc, ih (i + 1), List.count_cons, hcp]

theorem fmi_aux_getLast {pat : Char} {s : List Char} (i : Nat) (h : pat ∈ s) :
    (fmi_aux pat s i).getLast? = some (i + last_pos pat s) := by
  induction s generalizing i with
  | nil => cases h
  | cons c t ih =>
    by_cases hm : pat ∈ t
    · have hne := fmi_aux_ne_nil (i + 1) hm
      by_cases hc : c == pat
      · simp only [fmi_aux, if_pos hc, last_pos, if_pos hm]
        rw [getLast?_cons_of_ne_nil hne, ih (i + 1) hm]
        congr 1
        omega
      · simp only [fmi_aux, if_neg hc, last_pos, if_pos hm]
        rw [ih (i + 1) hm]
        congr 1
        omega
    · have hc : c = pat := by
        rcases List.mem_cons.mp h with h1 | h1
        · exact h1.symm
        · exact absurd h1 hm
      have hcb : (c == pat) = true := beq_iff_eq.mpr hc
      simp only [fmi_aux, if_pos hcb, last_pos, if_neg hm]
      rw [fmi_aux_eq_nil (i + 1) hm]
      rfl

theorem find_matched_indices_length (s : List Char) (c : Char) :
    (find_matched_indices s c).length = s.count c :=
  fmi_aux_length c s 0

theorem find_matched_indices_getLast (s : List Char) (c : Char) :
    (find_matched_indices s c).getLast?.getD 0 = last_pos c s := by
  by_cases h : c ∈ s
  · rw [find_matched_indices, fmi_aux_getLast 0 h]
    simp
  · rw [find_matched_indices, fmi_aux_eq_nil 0 h]
    simp [last_pos_of_not_mem h]

theorem to_start_end_of_mem {s : List Char} {sep : Char} (h : sep ∈ s) :
    to_start_end s sep = (s.take (last_pos sep s), s.drop (last_pos sep s + 1)) := by
  rw [to_start_end, find_matched_indices, fmi_aux_getLast 0 h]
  simp

theorem count_pos_of_mem {s : List Char} {c : Char} (h : c ∈ s) : 0 < s.count c :=
  List.count_pos_iff.mpr h

theorem mem_of_count_ne_zero {s : List Char} {c : Char} (h : s.count c ≠ 0) : c ∈ s :=
  List.count_pos_iff.mp (Nat.pos_of_ne_zero h)

/-- The code's `correct_numeric_string` computes exactly the decision rule of
spec §4.2 as restated in claim C3 (with absent separators taking index 0 in
the last-index comparison). -/
theorem correct_numeric_string_eq_spec (s : List Char) (force : Bool) :
    correct_numeric_string s force = correct_numeric_string_spec s force := by
  unfold correct_numeric_string correct_numeric_string_spec
  simp only [find_matched_indices_length, find_matched_indices_getLast]
  by_cases hcond : 1 < s.count '.'
      ∨ (last_pos ',' s > last_pos '.' s ∧ s.count ',' ≤ 1)
      ∨ (force = true ∧ s.count ',' ≤ 1)
  · have hb : (decide (s.count '.' > 1)
        || (decide (last_pos ',' s > last_pos '.' s) && decide (s.count ',' ≤ 1))
        || (force && decide (s.count ',' ≤ 1))) = true := by
      rcases hcond with h | ⟨h1, h2⟩ | ⟨h1, h2⟩ <;> simp [*]
    rw [if_pos hb, if_pos hcond]
    by_cases hz : s.count ',' = 0
    · rw [if_pos (by simpa [Nat.lt_one_iff] using hz), if_pos hz]
    · rw [if_neg (by simpa [Nat.lt_one_iff] using hz), if_neg hz,
        to_start_end_of_mem (mem_of_count_ne_zero hz)]
  · have hb : (decide (s.count '.' > 1)
        || (decide (last_pos ',' s > last_pos '.' s) && decide (s.count ',' ≤ 1))
        || (force && decide (s.count ',' ≤ 1))) = false := by
      push_neg at hcond
      obtain ⟨h1, h2, h3⟩ := hcond
      rcases Nat.lt_or_ge (s.count ',') 2 with hlt | hge
      · have hle : s.count ',' ≤ 1 := by omega
        have hnp : ¬ last_pos ',' s > last_pos '.' s := fun hgt => by
          have := h2 hgt
          omega
        have hnf : force = false := by
          cases force with
          | false => rfl
          | true =>
            have := h3 rfl
            omega
        simp [h1, hnp, hnf, Nat.lt_irrefl]
      · have hle : ¬ s.count ',' ≤ 1 := by omega
        simp [h1, hle]
    rw [if_neg (by simp [hb]), if_neg hcond]

/-- The per-character validity test inside the `is_numeric` loop, as a function
of the last index, the current index and the number of decimal separators seen
so far. -/
def code_valid_char (last_index i num_decimal_separators : Nat) (c : Char) : Bool :=
  if c.isDigit then true
  else match c with
    | '-' => i == 0
    | '.' => decide (i < last_index) && decide (num_decimal_separators < 1)
    | _ => false

theorem is_numeric_step_eq (last v i d : Nat) (c : Char) :
    is_numeric_step last (v, i, d) c =
      ((if code_valid_char last i d c then v + 1 else v), i + 1,
        (if c == '.' then d + 1 else d)) := rfl

/-- Number of loop iterations that count as valid, starting from index `i` with
`d` decimal separators already seen. -/
def valid_count (last : Nat) : List Char → Nat → Nat → Nat
  | [], _, _ => 0
  | c :: t, i, d =>
    (if code_valid_char last i d c then 1 else 0)
      + valid_count last t (i + 1) (if c == '.' then d + 1 else d)

theorem foldl_is_numeric_step (last : Nat) (s : List Char) : ∀ v i d : Nat,
    s.foldl (is_numeric_step last) (v, i, d) =
      (v + valid_count last s i d, i + s.length, d + s.count '.') := by
  induction s with
  | nil => intro v i d; simp [valid_count]
  | cons c t ih =>
    intro v i d
    rw [List.foldl_cons, is_numeric_step_eq, ih]
    refine Prod.ext ?_ (Prod.ext ?_ ?_)
    · show _ = v + valid_count last (c :: t) i d
      rw [valid_count]
      by_cases hv : code_valid_char last i d c <;> simp [hv] <;> omega
    · show i + 1 + t.length = i + (c :: t).length
      simp [List.length_cons]; omega
    · show (if c == '.' then d + 1 else d) + t.count '.' = d + (c :: t).count '.'
      rw [List.count_cons]
      by_cases hc : c == '.' <;> simp [hc] <;> omega

/-- All loop iterations count as valid. -/
def all_valid (last : Nat) : List Char → Nat → Nat → Prop
  | [], _, _ => True
  | c :: t, i, d =>
    code_valid_char last i d c = true ∧ all_valid last t (i + 1) (if c == '.' then d + 1 else d)

theorem valid_count_le (last : Nat) (s : List Char) : ∀ i d : Nat,
    valid_count last s i d ≤ s.length := by
  induction s with
  | nil => intro i d; simp [valid_count]
  | cons c t ih =>
    intro i d
    rw [valid_count, List.length_cons]
    have := ih (i + 1) (if c == '.' then d + 1 else d)
    by_cases hv : code_valid_char last i d c = true
    · rw [if_pos hv]; omega
    · rw [if_neg hv]; omega

theorem valid_count_eq_length_iff (last : Nat) (s : List Char) : ∀ i d : Nat,
    (valid_count last s i d = s.length ↔ all_valid last s i d) := by
  induction s with
  | nil => intro i d; simp [valid_count, all_valid]
  | cons c t ih =>
    intro i d
    rw [valid_count, all_valid, List.length_cons, ← ih (i + 1) (if c == '.' then d + 1 else d)]
    have hle := valid_count_le last t (i + 1) (if c == '.' then d + 1 else d)
    by_cases hv : code_valid_char last i d c = true
    · rw [if_pos hv]
      simp only [hv, true_and]
      omega
    · rw [if_neg hv]
      refine iff_of_false (by omega) (fun hh => hv hh.1)

theorem is_numeric_eq_all_valid {s : List Char} (h : s ≠ []) :
    (is_numeric s = true ↔ all_valid (s.length - 1) s 0 0) := by
  have hlen : ¬ s.length < 1 := by
    cases s with
    | nil => exact absurd rfl h
    | cons c t => simp
  rw [is_numeric]
  simp only [hlen, if_false, foldl_is_numeric_step, Nat.zero_add, beq_iff_eq]
  exact valid_count_eq_length_iff (s.length - 1) s 0 0

theorem all_valid_iff_forall (last : Nat) (s : List Char) : ∀ i d : Nat,
    (all_valid last s i d ↔
      ∀ j (hj : j < s.length),
        code_valid_char last (i + j) (d + (s.take j).count '.') (s.get ⟨j, hj⟩) = true) := by
  induction s with
  | nil => intro i d; simp [all_valid]
  | cons c t ih =>
    intro i d
    rw [all_valid, ih (i + 1) (if c == '.' then d + 1 else d)]
    constructor
    · rintro ⟨h0, hrest⟩ j hj
      cases j with
      | zero => simpa using h0
      | succ k =>
        have hk : k < t.length := by
          have := hj; simp at this; omega
        have hr := hrest k hk
        have harg : (if c == '.' then d + 1 else d) + (t.take k).count '.'
            = d + ((c :: t).take (k + 1)).count '.' := by
          rw [List.take_succ_cons, List.count_cons]
          by_cases hc : c == '.' <;> simp [hc] <;> omega
        have hidx : i + 1 + k = i + (k + 1) := by omega
        rw [harg, hidx] at hr
        simpa using hr
    · intro hall
      constructor
      · have := hall 0 (by simp)
        simpa using this
      · intro k hk
        have := hall (k + 1) (by simp; omega)
        have harg : (if c == '.' then d + 1 else d) + (t.take k).count '.'
            = d + ((c :: t).take (k + 1)).count '.' := by
          rw [List.take_succ_cons, List.count_cons]
          by_cases hc : c == '.' <;> simp [hc] <;> omega
        have hidx : i + 1 + k = i + (k + 1) := by omega
        rw [harg, hidx]
        simpa using this

theorem code_valid_char_iff (last i d : Nat) (c : Char) :
    (code_valid_char last i d c = true ↔
      (c.isDigit = true ∨ (c = '-' ∧ i = 0) ∨ (c = '.' ∧ i < last ∧ d < 1))) := by
  by_cases h2 : c = '-'
  · subst h2
    have e1 : ('-' : Char).isDigit = false := by decide
    have e3 : ¬ ('-' : Char) = '.' := by decide
    simp [code_valid_char, e1, e3, Nat.lt_one_iff]
  · by_cases h3 : c = '.'
    · subst h3
      have e1 : ('.' : Char).isDigit = false := by decide
      simp [code_valid_char, e1, h2, Nat.lt_one_iff]
    · by_cases h1 : c.isDigit = true
      · simp [code_valid_char, h1]
      · simp [code_valid_char, h1, h2, h3]

theorem count_take_get_drop {s : List Char} {j : Nat} (h : j < s.length) (a : Char) :
    s.count a = (s.take j).count a + ((s.get ⟨j, h⟩ :: s.drop (j + 1)).count a) := by
  conv_lhs => rw [← List.take_append_drop j s]
  rw [List.count_append]
  congr 2
  rw [List.drop_eq_getElem_cons h]
  simp

theorem mem_take_of_get {s : List Char} {j m : Nat} (hj : j < s.length) (hm : j < m)
    {a : Char} (hga : s.get ⟨j, hj⟩ = a) : a ∈ s.take m := by
  have hlen : j < (s.take m).length := by simp; omega
  have hg : (s.take m).get ⟨j, hlen⟩ = a := by
    rw [List.get_eq_getElem] at hga ⊢
    rw [← List.getElem_take' s hj hm]
    exact hga
  exact hg ▸ List.get_mem (s.take m) j hlen

theorem code_positions_iff_spec (s : List Char) :
    ((∀ j (hj : j < s.length),
        code_valid_char (s.length - 1) j ((s.take j).count '.') (s.get ⟨j, hj⟩) = true)
      ↔ is_strict_numeric_literal_spec s) := by
  constructor
  · intro hall j hj
    have h := (code_valid_char_iff _ _ _ _).mp (hall j hj)
    rcases h with h | ⟨hc, hi⟩ | ⟨hc, hlt, hd⟩
    · exact Or.inl h
    · exact Or.inr (Or.inl ⟨hc, hi⟩)
    · refine Or.inr (Or.inr ⟨hc, hlt, ?_⟩)
      have hdecomp := count_take_get_drop hj '.'
      rw [hc] at hdecomp
      have hcons : ('.' :: s.drop (j + 1)).count '.' = (s.drop (j + 1)).count '.' + 1 := by
        simp [List.count_cons]
      have hdrop : (s.drop (j + 1)).count '.' = 0 := by
        by_contra hne
        obtain ⟨k, hk⟩ := List.get_of_mem (mem_of_count_ne_zero hne)
        have hk2 : j + 1 + k.1 < s.length := by
          have := k.2
          simp at this
          omega
        have hget : s.get ⟨j + 1 + k.1, hk2⟩ = '.' := by
          rw [List.get_eq_getElem] at hk ⊢
          rw [← List.getElem_drop s]
          exact hk
        have h2 := (code_valid_char_iff _ _ _ _).mp (hall (j + 1 + k.1) hk2)
        rcases h2 with h2 | ⟨h2, _⟩ | ⟨_, _, h2⟩
        · rw [hget] at h2
          exact absurd h2 (by decide)
        · exact absurd (hget.symm.trans h2) (by decide)
        · have hmemt : '.' ∈ s.take (j + 1 + k.1) := mem_take_of_get hj (by omega) hc
          have := count_pos_of_mem hmemt
          omega
      omega
  · intro hspec j hj
    apply (code_valid_char_iff _ _ _ _).mpr
    rcases hspec j hj with h | ⟨hc, hi⟩ | ⟨hc, hlt, hcount⟩
    · exact Or.inl h
    · exact Or.inr (Or.inl ⟨hc, hi⟩)
    · refine Or.inr (Or.inr ⟨hc, hlt, ?_⟩)
      have hdecomp := count_take_get_drop hj '.'
      rw [hc] at hdecomp
      have hcons : ('.' :: s.drop (j + 1)).count '.' = (s.drop (j + 1)).count '.' + 1 := by
        simp [List.count_cons]
      omega

/-- The strict numeric validator of the code agrees with the spec's wording on
every non-empty string. -/
theorem is_numeric_iff_spec {s : List Char} (h : s ≠ []) :
    (is_numeric s = true ↔ is_strict_numeric_literal_spec s) := by
  rw [is_numeric_eq_all_valid h, all_valid_iff_forall (s.length - 1) s 0 0,
    ← code_positions_iff_spec s]
  constructor
  · intro hall j hj
    have := hall j hj
    simpa using this
  · intro hall j hj
    have := hall j hj
    simpa using this

theorem matched_conditional_eq_map (txt : List Char) :
    ∀ rules : List StringBounds,
      matched_conditional txt rules = rules.map (fun r => match_bounds_rule_set txt r) := by
  intro rules
  induction rules with
  | nil => rfl
  | cons r rs ih => simp [matched_conditional, ih]

theorem correct_unchanged_of_single_dot_no_comma (s : List Char)
    (h1 : s.count '.' = 1) (h0 : s.count ',' = 0) :
    correct_numeric_string s false = s := by
  rw [correct_numeric_string_eq_spec]
  have hnm : ',' ∉ s := fun hm => by
    have := count_pos_of_mem hm
    omega
  have hlp : last_pos ',' s = 0 := last_pos_of_not_mem hnm
  rw [correct_numeric_string_spec]
  have hcond : ¬ (1 < s.count '.'
      ∨ (last_pos ',' s > last_pos '.' s ∧ s.count ',' ≤ 1)
      ∨ (false = true ∧ s.count ',' ≤ 1)) := by
    rw [h1, hlp]
    rintro (h | ⟨h, _⟩ | ⟨h, _⟩)
    · omega
    · omega
    · exact Bool.false_ne_true h
  rw [if_neg hcond]
  apply List.filter_eq_self.mpr
  intro a ha
  have : a ≠ ',' := fun he => hnm (he ▸ ha)
  simpa using this

/-
  Claim theorems. Each theorem below settles one claim of the specification.
-/

/-- C1 (counterexample): the claim that the vacuous-truth boundary of an empty
And node carries over to the top-level "all" aggregate fails: on the sample
"abc" and an empty rule list, `match_all_conditional` returns `false`, not
`true`. -/
theorem match_all_conditional_empty_is_false :
    ¬ (match_all_conditional ("abc".data) [] = true) := by decide

/-- C1 (amended): an empty And node evaluates `true` and an empty Or node
evaluates `false`; the top-level "any" aggregate also returns `false` on an
empty rule list, but the top-level "all" aggregate (`match_all_conditional`)
explicitly returns `false`, not `true`, when no rules are provided. -/
theorem empty_rule_list_boundary (txt : List Char) :
    match_bounds_rule_set txt (StringBounds.And []) = true
    ∧ match_bounds_rule_set txt (StringBounds.Or []) = false
    ∧ match_any_conditional txt [] = false
    ∧ match_all_conditional txt [] = false :=
  ⟨rfl, rfl, rfl, rfl⟩

/-- C2 (code bug): scanning the string "1.2.3,4.5" produces the single token
"123.4.5", which fails the strict numeric validator `is_numeric`, contradicting
the claimed invariant that every scanned token satisfies the validator (and the
source's own description of the scan as extracting valid numeric strings). -/
theorem scanner_emits_invalid_token_on_mixed_separators :
    to_numeric_strings_conditional ("1.2.3,4.5".data) false = ["123.4.5".data]
    ∧ is_numeric ("123.4.5".data) = false := by decide

/-- C3: `correct_numeric_string` follows exactly the claimed decision rule:
comma becomes the decimal separator when there is more than one dot, or the
last comma follows the last dot with at most one comma, or the force flag is
set with at most one comma (dots removed when no comma is present, otherwise
split at the last comma, dots stripped from the head, parts rejoined with one
dot); in every other case the commas are removed. -/
theorem correct_numeric_string_follows_decision_rule :
    ∀ (s : List Char) (force : Bool),
      correct_numeric_string s force = correct_numeric_string_spec s force :=
  correct_numeric_string_eq_spec

/-- C4 (counterexample): with a single dot, no comma and the force flag unset,
the claimed behaviour ("1.500" becomes "1500", the dot removed as a thousands
separator) fails: the code returns "1.500" unchanged. -/
theorem single_dot_not_removed_cex :
    correct_numeric_string ("1.500".data) false = "1.500".data
    ∧ ¬ ("1.500".data = "1500".data) := by decide

/-- C4 (amended): for a candidate numeric string with a single dot and no
comma, disambiguation with the force flag unset returns the string unchanged —
the lone dot is kept as a decimal point; it is only removed (treated as a
thousands separator) when the force flag is set. -/
theorem single_dot_no_comma_unchanged (s : List Char)
    (h1 : s.count '.' = 1) (h0 : s.count ',' = 0) :
    correct_numeric_string s false = s :=
  correct_unchanged_of_single_dot_no_comma s h1 h0

/-- C4 (witness): the amended statement evaluated on "1.500". -/
theorem single_dot_no_comma_unchanged_witness :
    ("1.500".data.count '.' = 1) ∧ ("1.500".data.count ',' = 0)
    ∧ correct_numeric_string ("1.500".data) false = "1.500".data :=
  ⟨by decide, by decide, single_dot_no_comma_unchanged _ (by decide) (by decide)⟩

/-- C5: every scalar predicate node evaluates to the equivalence of the raw
positional test with the positivity flag, the sample being lower-cased and
alphanumeric-stripped under AlphanumInsensitive while the pattern is only
lower-cased. -/
theorem match_bounds_rule_eq_spec_eval :
    ∀ (pos : BoundsPosition) (p : List Char) (positive : Bool)
      (cm : CaseMatchMode) (txt : List Char),
      match_bounds_rule txt (StringBounds.new pos p positive cm)
        = evaluate_predicate_spec txt p positive cm pos := by
  intro pos p positive cm txt
  cases pos <;> cases cm <;> rfl

/-- C6 (code bug): `and_false` inserts a single `StringBounds.Or` node of
negative predicates; on the sample "a" with patterns ["a", "b"] (Contains,
case-sensitive) that node evaluates `true` (because "b" does not match), while
the claimed negated-And semantics ("true exactly when none of the patterns
matches") evaluates `false` because "a" matches. -/
theorem and_false_or_node_evaluation :
    (BoundsBuilder.and_false ⟨[]⟩ ["a".data, "b".data]
        CaseMatchMode.Sensitive BoundsPosition.Contains).string_bounds
      = [StringBounds.Or
          [StringBounds.Contains ("a".data) false CaseMatchMode.Sensitive,
           StringBounds.Contains ("b".data) false CaseMatchMode.Sensitive]]
    ∧ match_bounds_rule_set ("a".data)
        (StringBounds.Or
          [StringBounds.Contains ("a".data) false CaseMatchMode.Sensitive,
           StringBounds.Contains ("b".data) false CaseMatchMode.Sensitive]) = true
    ∧ none_matches_eval ("a".data) ["a".data, "b".data]
        CaseMatchMode.Sensitive BoundsPosition.Contains = false :=
  ⟨rfl, by decide, by decide⟩

/-- C7 (counterexample): the claimed characterization fails on the empty
string: `is_numeric ""` is `false`, while the character-wise condition holds
vacuously. -/
theorem is_numeric_empty_cex :
    ¬ ((is_numeric [] = true) ↔ is_strict_numeric_literal_spec []) := by
  intro h
  have h2 : is_numeric [] = true := h.mpr (fun i hi => absurd hi (by simp))
  exact absurd h2 (by decide)

/-- C7 (amended): for every non-empty string, `is_numeric` returns true exactly
when every character is a decimal digit, or is a minus sign at position 0, or
is the single dot of the string placed before the last position. -/
theorem is_numeric_charwise_characterization (s : List Char) (h : s ≠ []) :
    (is_numeric s = true ↔ is_strict_numeric_literal_spec s) :=
  is_numeric_iff_spec h

/-- C7 (witness): the amended characterization evaluated on "-12.75". -/
theorem is_numeric_charwise_characterization_witness :
    ("-12.75".data ≠ [])
    ∧ (is_numeric ("-12.75".data) = true ↔ is_strict_numeric_literal_spec ("-12.75".data)) :=
  ⟨by decide, is_numeric_charwise_characterization _ (by decide)⟩

/-- C8: disambiguation is idempotent on already-normalized numeric strings: a
string with a single dot and no comma is returned unchanged by
`correct_numeric_string` with the force flag unset. -/
theorem correct_numeric_string_idempotent_on_normalized (s : List Char)
    (h1 : s.count '.' = 1) (h0 : s.count ',' = 0) :
    correct_numeric_string s false = s :=
  correct_unchanged_of_single_dot_no_comma s h1 h0

/-- C8 (witness): the idempotence statement evaluated on "1234.56". -/
theorem correct_numeric_string_idempotent_on_normalized_witness :
    ("1234.56".data.count '.' = 1) ∧ ("1234.56".data.count ',' = 0)
    ∧ correct_numeric_string ("1234.56".data) false = "1234.56".data :=
  ⟨by decide, by decide,
    correct_numeric_string_idempotent_on_normalized _ (by decide) (by decide)⟩

/-- C9: end-to-end numeric extraction on the prose sentence yields exactly
9999.99, 2 and 72 (as rationals), the three tokens "9999.99", "2" and "72"
being scanned left to right with the trailing full stop dropped. -/
theorem extract_numbers_prose_example :
    to_numbers_conditional parse_decimal
        ("I spent £9999.99 on 2 motorbikes at the age of 72.".data) false
      = [(999999 : ℚ) / 100, 2, 72]
    ∧ to_numeric_strings_conditional
        ("I spent £9999.99 on 2 motorbikes at the age of 72.".data) false
      = ["9999.99".data, "2".data, "72".data] := by
  constructor
  · have h : to_numbers_conditional parse_decimal
        ("I spent £9999.99 on 2 motorbikes at the age of 72.".data) false
      = [mkRat 999999 100, mkRat 2 1, mkRat 72 1] := by decide
    rw [h, Rat.mkRat_eq_div, Rat.mkRat_eq_div, Rat.mkRat_eq_div]
    norm_num
  · decide

/-- C10: the per-rule evaluation surface returns one boolean per top-level
rule, in order: the result vector has the same length as the rule list and its
i-th entry is the evaluation of the i-th rule against the sample. -/
theorem matched_conditional_lengths_and_entries :
    ∀ (txt : List Char) (rules : List StringBounds),
      (matched_conditional txt rules).length = rules.length
      ∧ ∀ i : Nat, (matched_conditional txt rules).get? i
          = (rules.get? i).map (fun r => match_bounds_rule_set txt r) := by
  intro txt rules
  rw [matched_conditional_eq_map]
  constructor
  · simp
  · intro i
    simp [List.getElem?_map]
